import Mathlib

/-!
Verification of the DOM query cache of the playwright-mcp repository.

The embedding follows `src/utils/domCache.ts` (the `DOMCache` class) and
`src/tools/cache.ts` (the `browser_clear_cache` handler and the
`browser_query_dom` handler, including the scored free-text search script it
evaluates in the page).

Modelling conventions:
* A JavaScript `Map` is an insertion-ordered association list
  `List (String × β)`; `Map.set` overwrites the first occurrence in place and
  otherwise appends, `Map.delete` removes the occurrences of the key, and
  iteration order is list order.
* `Date.now()` timestamps are explicit `Nat` arguments (milliseconds).
* JavaScript truthiness of the optional parameters is modelled explicitly:
  `undefined`, `''` and `0` are falsy.
* The payload stored in the cache (`data: any`) is an arbitrary type `α`.
-/

/-- Query shape accepted by `generateKey` / `get` / `set` in `domCache.ts`:
`{ selector?: string, searchText?: string, offset?: number, limit?: number }`. -/
structure QueryShape where
  selector : Option String := none
  searchText : Option String := none
  offset : Option Nat := none
  limit : Option Nat := none
deriving DecidableEq

/-- `CacheEntry` from `domCache.ts` (`data`, `timestamp`, `url`, `selector?`,
`searchText?`). -/
structure CacheEntry (α : Type) where
  data : α
  timestamp : Nat
  url : String
  selector : Option String
  searchText : Option String
deriving DecidableEq

/-- JavaScript `x || ''` for an optional string (an absent value and the empty
string both yield `''`). -/
def orEmpty : Option String → String
  | none => ""
  | some s => s

/-- JavaScript `x || d` for an optional number: `undefined` and `0` are falsy
and give the default `d`. -/
def numOr (x : Option Nat) (d : Nat) : Nat :=
  match x with
  | none => d
  | some n => if n = 0 then d else n

/-- JavaScript truthiness of an optional string (`undefined` and `''` are
falsy). -/
def truthyStr : Option String → Bool
  | none => false
  | some s => !(s == "")

/-- JavaScript truthiness of an optional number (`undefined` and `0` are
falsy). -/
def truthyNum : Option Nat → Bool
  | none => false
  | some n => !(n == 0)

/-- `DOMCache.generateKey`:
`` `${url}:${params.selector || ''}:${params.searchText || ''}:${params.offset || 0}:${params.limit || 20}` ``. -/
def generateKey (url : String) (p : QueryShape) : String :=
  url ++ ":" ++ orEmpty p.selector ++ ":" ++ orEmpty p.searchText ++ ":"
      ++ toString (numOr p.offset 0) ++ ":" ++ toString (numOr p.limit 20)

/-- Lookup in the association list modelling `Map.prototype.get`. -/
def mapGet (l : List (String × β)) (k : String) : Option β :=
  (l.find? (fun kv => kv.1 == k)).map (·.2)

/-- `Map.prototype.has`. -/
def mapHasKey (l : List (String × β)) (k : String) : Bool :=
  l.any (fun kv => kv.1 == k)

/-- `Map.prototype.set`: overwrite the first binding of the key in place,
otherwise append at the end (JS `Map` keeps insertion order). -/
def mapSet : List (String × β) → String → β → List (String × β)
  | [], k, v => [(k, v)]
  | kv :: t, k, v => if kv.1 == k then (k, v) :: t else kv :: mapSet t k v

/-- `Map.prototype.delete`. -/
def mapDelete (l : List (String × β)) (k : String) : List (String × β) :=
  l.filter (fun kv => !(kv.1 == k))

/-- The `DOMCache` class state: the entry map plus the two configuration
fields set by the constructor. -/
structure DOMCache (α : Type) where
  entries : List (String × CacheEntry α)
  maxAge : Nat
  maxEntries : Nat
deriving DecidableEq

/-- The `DOMCache` constructor:
`constructor(maxAgeSeconds = 60, maxEntries = 100)` with
`this.maxAge = maxAgeSeconds * 1000`. -/
def DOMCache.new (maxAgeSeconds : Nat := 60) (maxEntries : Nat := 100) :
    DOMCache α :=
  { entries := [], maxAge := maxAgeSeconds * 1000, maxEntries := maxEntries }

/-- `DOMCache.get`: compute the key; absent key returns `null`; an entry with
`now - entry.timestamp > this.maxAge` is deleted and `null` returned;
otherwise the stored data is returned. The (possibly changed) cache state is
returned as the second component. -/
def DOMCache.get (c : DOMCache α) (now : Nat) (url : String) (p : QueryShape) :
    Option α × DOMCache α :=
  match mapGet c.entries (generateKey url p) with
  | none => (none, c)
  | some entry =>
    if now - entry.timestamp > c.maxAge then
      (none, { c with entries := mapDelete c.entries (generateKey url p) })
    else
      (some entry.data, c)

/-- `DOMCache.findOldestEntry`, one step of the loop: keep the entry with the
strictly smallest timestamp seen so far (`Infinity` initially, so the first
entry always wins against an empty accumulator). -/
def findOldestStep (acc : Option (String × CacheEntry α))
    (kv : String × CacheEntry α) : Option (String × CacheEntry α) :=
  match acc with
  | none => some kv
  | some best => if kv.2.timestamp < best.2.timestamp then some kv else some best

/-- `DOMCache.findOldestEntry`: scan the map in iteration order and return the
key of the first entry attaining the minimal timestamp. -/
def findOldestEntry (l : List (String × CacheEntry α)) : Option String :=
  (l.foldl findOldestStep none).map (·.1)

/-- The capacity check at the top of `DOMCache.set`: when the store is at (or
above) `maxEntries` and the key is new, delete the oldest entry (if any). -/
def evictIfNeeded (c : DOMCache α) (key : String) :
    List (String × CacheEntry α) :=
  if c.maxEntries ≤ c.entries.length ∧ mapHasKey c.entries key = false then
    match findOldestEntry c.entries with
    | some oldestKey => mapDelete c.entries oldestKey
    | none => c.entries
  else c.entries

/-- `DOMCache.set`: if `size >= maxEntries` and the key is not present, delete
the oldest entry (if any); then store the new entry under the key. -/
def DOMCache.set (c : DOMCache α) (now : Nat) (url : String) (p : QueryShape)
    (data : α) : DOMCache α :=
  ⟨mapSet (evictIfNeeded c (generateKey url p)) (generateKey url p)
      ⟨data, now, url, p.selector, p.searchText⟩,
    c.maxAge, c.maxEntries⟩

/-- `DOMCache.invalidate(url?)`: with a truthy url, collect the keys of the
entries whose stored `url` equals it and delete them; otherwise clear the
whole map.  (JS truthiness: `invalidate('')` takes the clear-all branch.) -/
def DOMCache.invalidate (c : DOMCache α) (url : Option String) : DOMCache α :=
  if truthyStr url then
    { c with entries :=
        c.entries.filter (fun kv =>
          !(((c.entries.filter (fun kv2 => kv2.2.url == orEmpty url)).map (·.1)).contains
            kv.1)) }
  else
    { c with entries := [] }

/-- `DOMCache.invalidateOlderThan(ageSeconds)`: collect the keys of the
entries with `now - entry.timestamp > ageSeconds * 1000` and delete them. -/
def DOMCache.invalidateOlderThan (c : DOMCache α) (now : Nat)
    (ageSeconds : Nat) : DOMCache α :=
  { c with entries :=
      c.entries.filter (fun kv =>
        !(((c.entries.filter (fun kv2 =>
              decide (now - kv2.2.timestamp > ageSeconds * 1000))).map (·.1)).contains
          kv.1)) }

/-- `DOMCache.size`. -/
def DOMCache.size (c : DOMCache α) : Nat :=
  c.entries.length

/-- Looking up the key just stored always finds the stored value. -/
theorem mapGet_mapSet_self (l : List (String × β)) (k : String) (v : β) :
    mapGet (mapSet l k v) k = some v := by
  induction l with
  | nil => simp [mapSet, mapGet]
  | cons kv t ih =>
    by_cases h : kv.1 == k
    · simp [mapSet, h, mapGet]
    · simp only [mapSet, h, Bool.false_eq_true, if_false]
      simpa [mapGet, List.find?_cons, h] using ih

/-- After deleting a key it can no longer be found. -/
theorem mapGet_mapDelete_self (l : List (String × β)) (k : String) :
    mapGet (mapDelete l k) k = none := by
  induction l with
  | nil => simp [mapDelete, mapGet]
  | cons kv t ih =>
    by_cases h : kv.1 == k
    · rw [show mapDelete (kv :: t) k = mapDelete t k by
        simp [mapDelete, List.filter_cons, h]]
      exact ih
    · rw [show mapDelete (kv :: t) k = kv :: mapDelete t k by
        simp [mapDelete, List.filter_cons, h]]
      rw [show mapGet (kv :: mapDelete t k) k = mapGet (mapDelete t k) k by
        simp [mapGet, List.find?_cons, h]]
      exact ih

/-- The entry map produced by `set` is `mapSet` of the (possibly evicted)
previous map, with the fresh entry recording `data`, the timestamp and the
query shape. -/
theorem set_entries_eq (c : DOMCache α) (now : Nat) (url : String)
    (p : QueryShape) (d : α) :
    (c.set now url p d).entries
      = mapSet (evictIfNeeded c (generateKey url p)) (generateKey url p)
          ⟨d, now, url, p.selector, p.searchText⟩ :=
  rfl

/-- C1: after `set(pageIdentity, shape, data)`, a `get` with the identical
page identity and shape performed while `now2 - now ≤ maxAge` (in particular
strictly before `maxAgeMs` has elapsed) returns exactly the stored payload;
the key derivation is a pure function of the shape, so the same shape always
addresses the same slot. -/
theorem c1_get_after_set_roundtrip (c : DOMCache α) (now now2 : Nat)
    (url : String) (p : QueryShape) (d : α) (h : now2 - now ≤ c.maxAge) :
    ((c.set now url p d).get now2 url p).1 = some d := by
  unfold DOMCache.get
  rw [set_entries_eq, mapGet_mapSet_self]
  have hma : (c.set now url p d).maxAge = c.maxAge := rfl
  simp only [hma]
  rw [if_neg (by omega)]

/-- C1 witness at a concrete input. -/
theorem c1_get_after_set_roundtrip_witness :
    (((DOMCache.new 60 100 : DOMCache Nat).set 1000 "u" {} 7).get 1500 "u" {}).1
      = some 7 :=
  c1_get_after_set_roundtrip (DOMCache.new 60 100) 1000 1500 "u" {} 7 (by decide)

/-- C2: for an entry inserted at time `T`, a `get` at an age strictly greater
than `maxAge` deletes the entry and returns absent, a `get` at an age strictly
smaller than `maxAge` returns the stored payload; in particular the entry is
returned at `T + maxAge - 1` and absent (and removed) at `T + maxAge + 1`. -/
theorem c2_lazy_expiration (c : DOMCache α) (T : Nat) (url : String)
    (p : QueryShape) (d : α) :
    (∀ now, now - T > c.maxAge →
        (((c.set T url p d).get now url p).1 = none ∧
          mapGet (((c.set T url p d).get now url p).2).entries (generateKey url p)
            = none)) ∧
    (∀ now, now - T < c.maxAge → ((c.set T url p d).get now url p).1 = some d) ∧
    ((c.set T url p d).get (T + c.maxAge - 1) url p).1 = some d ∧
    (((c.set T url p d).get (T + c.maxAge + 1) url p).1 = none ∧
      mapGet (((c.set T url p d).get (T + c.maxAge + 1) url p).2).entries
        (generateKey url p) = none) := by
  have hset := set_entries_eq c T url p d
  have hma : (c.set T url p d).maxAge = c.maxAge := rfl
  have hexp : ∀ now, now - T > c.maxAge →
      (((c.set T url p d).get now url p).1 = none ∧
        mapGet (((c.set T url p d).get now url p).2).entries (generateKey url p)
          = none) := by
    intro now hnow
    unfold DOMCache.get
    rw [hset, mapGet_mapSet_self]
    simp only [hma]
    rw [if_pos hnow]
    exact ⟨rfl, by simp [hset, mapGet_mapDelete_self]⟩
  have hfresh : ∀ now, now - T ≤ c.maxAge →
      ((c.set T url p d).get now url p).1 = some d := by
    intro now hnow
    unfold DOMCache.get
    rw [hset, mapGet_mapSet_self]
    simp only [hma]
    rw [if_neg (by omega)]
  refine ⟨hexp, fun now hnow => hfresh now (Nat.le_of_lt hnow), ?_, ?_⟩
  · exact hfresh _ (by omega)
  · exact hexp _ (by omega)

/-- C2 witness at concrete inputs (`maxAge = 60000`, insertion at `T = 1000`,
reads at `61001` and `60999`). -/
theorem c2_lazy_expiration_witness :
    (((DOMCache.new 60 100 : DOMCache Nat).set 1000 "u" {} 7).get 61001 "u" {}).1
        = none ∧
    (((DOMCache.new 60 100 : DOMCache Nat).set 1000 "u" {} 7).get 60999 "u" {}).1
        = some 7 :=
  ⟨((c2_lazy_expiration (DOMCache.new 60 100) 1000 "u" {} 7).1 61001 (by decide)).1,
    (c2_lazy_expiration (DOMCache.new 60 100) 1000 "u" {} 7).2.1 60999 (by decide)⟩

/-- C9: the key derivation is not injective.  The page identity `"a:"` with no
parameters collides with page identity `"a"` and `searchText = ":"`, and
`limit = 0` is keyed identically to the default `limit = 20`; consequently a
`get` under one shape returns data stored under the other shape. -/
theorem c9_key_collision :
    (("a:", ({} : QueryShape)) ≠ ("a", ({ searchText := some ":" } : QueryShape))) ∧
    generateKey "a:" {} = generateKey "a" { searchText := some ":" } ∧
    (({ limit := some 0 } : QueryShape) ≠ ({ limit := some 20 } : QueryShape)) ∧
    generateKey "u" { limit := some 0 } = generateKey "u" { limit := some 20 } ∧
    (((DOMCache.new 60 100 : DOMCache Nat).set 5 "a" { searchText := some ":" } 7).get
        5 "a:" {}).1 = some 7 := by
  refine ⟨by decide, by decide, by decide, by decide, ?_⟩
  decide

/-- The keys of a JS `Map` are pairwise distinct; reachable cache states have
this property, and it is assumed where a claim speaks about "exactly" the
entry under a key. -/
def keysNodup (l : List (String × β)) : Prop :=
  (l.map Prod.fst).Nodup

instance (l : List (String × β)) : Decidable (keysNodup l) :=
  inferInstanceAs (Decidable (l.map Prod.fst).Nodup)

/-- Overwriting an existing key keeps the map size. -/
theorem length_mapSet_has (l : List (String × β)) (k : String) (v : β)
    (h : mapHasKey l k = true) : (mapSet l k v).length = l.length := by
  induction l with
  | nil => simp [mapHasKey] at h
  | cons kv t ih =>
    by_cases hk : kv.1 == k
    · simp [mapSet, hk]
    · have ht : mapHasKey t k = true := by
        simpa [mapHasKey, hk] using h
      simp [mapSet, hk, ih ht]

/-- Inserting a fresh key grows the map size by one. -/
theorem length_mapSet_not_has (l : List (String × β)) (k : String) (v : β)
    (h : mapHasKey l k = false) : (mapSet l k v).length = l.length + 1 := by
  induction l with
  | nil => simp [mapSet]
  | cons kv t ih =>
    have hk : (kv.1 == k) = false := by
      by_contra hc
      simp [mapHasKey, Bool.not_eq_false] at h hc
      exact h.1 hc
    have ht : mapHasKey t k = false := by
      simpa [mapHasKey, hk] using h
    simp [mapSet, hk, ih ht]

/-- A key found in a filtered map is found in the map. -/
theorem mapHasKey_filter (l : List (String × β)) (p : String × β → Bool)
    (k : String) (h : mapHasKey (l.filter p) k = true) : mapHasKey l k = true := by
  simp only [mapHasKey, List.any_eq_true] at h ⊢
  obtain ⟨kv, hkv, hb⟩ := h
  exact ⟨kv, (List.mem_filter.mp hkv).1, hb⟩

/-- Deleting never introduces a key. -/
theorem mapHasKey_mapDelete_of_not_has (l : List (String × β)) (k k2 : String)
    (h : mapHasKey l k2 = false) : mapHasKey (mapDelete l k) k2 = false := by
  by_contra hc
  rw [Bool.not_eq_false] at hc
  have := mapHasKey_filter l _ k2 hc
  rw [h] at this
  exact Bool.false_ne_true this

/-- Deleting an absent key does nothing. -/
theorem mapDelete_of_not_has (l : List (String × β)) (k : String)
    (h : mapHasKey l k = false) : mapDelete l k = l := by
  induction l with
  | nil => rfl
  | cons kv t ih =>
    have hk : (kv.1 == k) = false := by
      by_contra hc
      simp [mapHasKey, Bool.not_eq_false] at h hc
      exact h.1 hc
    have ht : mapHasKey t k = false := by
      simpa [mapHasKey, hk] using h
    simp [mapDelete, hk] at ih ⊢
    exact ih ht

/-- Deleting a present key strictly shrinks the map. -/
theorem length_mapDelete_lt (l : List (String × β)) (k : String)
    (h : mapHasKey l k = true) : (mapDelete l k).length < l.length := by
  induction l with
  | nil => simp [mapHasKey] at h
  | cons kv t ih =>
    by_cases hk : kv.1 == k
    · simp only [mapDelete, List.filter_cons, hk, Bool.not_true]
      exact Nat.lt_succ_of_le (List.length_filter_le _ t)
    · have ht : mapHasKey t k = true := by
        simpa [mapHasKey, hk] using h
      simpa [mapDelete, hk] using ih ht

/-- With pairwise-distinct keys, deleting a present key removes exactly one
entry. -/
theorem length_mapDelete_nodup (l : List (String × β)) (k : String)
    (hn : keysNodup l) (h : mapHasKey l k = true) :
    (mapDelete l k).length + 1 = l.length := by
  induction l with
  | nil => simp [mapHasKey] at h
  | cons kv t ih =>
    have hn2 : kv.1 ∉ t.map Prod.fst ∧ keysNodup t := by
      simpa [keysNodup] using hn
    by_cases hk : kv.1 == k
    · have hkeq : kv.1 = k := by simpa using hk
      have ht : mapHasKey t k = false := by
        by_contra hc
        simp only [Bool.not_eq_false, mapHasKey, List.any_eq_true] at hc
        obtain ⟨kv2, hkv2, hbeq⟩ := hc
        exact hn2.1 (hkeq ▸ (by simpa using hbeq) ▸ List.mem_map_of_mem Prod.fst hkv2)
      simp [mapDelete, hk, mapDelete_of_not_has t k ht]
      simpa [mapDelete] using congrArg List.length (mapDelete_of_not_has t k ht)
    · have ht : mapHasKey t k = true := by
        simpa [mapHasKey, hk] using h
      simpa [mapDelete, hk] using ih hn2.2 ht

/-- The accumulator-passing loop of `findOldestEntry`: the result is the first
entry attaining the minimal timestamp among the accumulator and the list. -/
theorem foldl_findOldestStep_spec (l : List (String × CacheEntry α))
    (b : String × CacheEntry α) :
    ∃ r, l.foldl findOldestStep (some b) = some r ∧
      ((r = b ∧ ∀ kv ∈ l, b.2.timestamp ≤ kv.2.timestamp) ∨
        (∃ l1 l2, l = l1 ++ r :: l2 ∧ r.2.timestamp < b.2.timestamp ∧
          (∀ kv ∈ l1, r.2.timestamp < kv.2.timestamp) ∧
          (∀ kv ∈ l2, r.2.timestamp ≤ kv.2.timestamp))) := by
  induction l generalizing b with
  | nil => exact ⟨b, rfl, Or.inl ⟨rfl, by simp⟩⟩
  | cons kv t ih =>
    by_cases hlt : kv.2.timestamp < b.2.timestamp
    · obtain ⟨r, hr, hspec⟩ := ih kv
      refine ⟨r, by simpa [findOldestStep, hlt] using hr, Or.inr ?_⟩
      rcases hspec with ⟨hrkv, hall⟩ | ⟨l1, l2, heq, hrb, h1, h2⟩
      · exact ⟨[], t, by rw [hrkv]; rfl, hrkv ▸ hlt, by simp, hrkv ▸ hall⟩
      · refine ⟨kv :: l1, l2, by rw [heq]; rfl, lt_trans hrb hlt, ?_, h2⟩
        intro x hx
        rcases List.mem_cons.mp hx with rfl | hx2
        · exact hrb
        · exact h1 x hx2
    · obtain ⟨r, hr, hspec⟩ := ih b
      refine ⟨r, by simpa [findOldestStep, hlt] using hr, ?_⟩
      rcases hspec with ⟨hrb, hall⟩ | ⟨l1, l2, heq, hrb, h1, h2⟩
      · refine Or.inl ⟨hrb, ?_⟩
        intro x hx
        rcases List.mem_cons.mp hx with rfl | hx2
        · exact Nat.le_of_not_lt hlt
        · exact hall x hx2
      · refine Or.inr ⟨kv :: l1, l2, by rw [heq]; rfl, hrb, ?_, h2⟩
        intro x hx
        rcases List.mem_cons.mp hx with rfl | hx2
        · exact lt_of_lt_of_le hrb (Nat.le_of_not_lt hlt)
        · exact h1 x hx2

/-- `findOldestEntry` on a non-empty map returns the key of the first entry
with the smallest timestamp (strictly smaller than everything before it,
weakly smaller than everything after it). -/
theorem findOldestEntry_spec (l : List (String × CacheEntry α)) (hne : l ≠ []) :
    ∃ k0 e0 l1 l2, findOldestEntry l = some k0 ∧
      l = l1 ++ (k0, e0) :: l2 ∧
      (∀ kv ∈ l1, e0.timestamp < kv.2.timestamp) ∧
      (∀ kv ∈ l2, e0.timestamp ≤ kv.2.timestamp) := by
  cases l with
  | nil => exact absurd rfl hne
  | cons kv t =>
    obtain ⟨r, hr, hspec⟩ := foldl_findOldestStep_spec t kv
    have hfold : findOldestEntry (kv :: t) = some r.1 := by
      simp [findOldestEntry, findOldestStep, hr]
    rcases hspec with ⟨hrkv, hall⟩ | ⟨l1, l2, heq, hrb, h1, h2⟩
    · exact ⟨r.1, r.2, [], t, hfold, by rw [hrkv]; rfl, by simp, hrkv ▸ hall⟩
    · refine ⟨r.1, r.2, kv :: l1, l2, hfold, by rw [heq]; rfl, ?_, h2⟩
      intro x hx
      rcases List.mem_cons.mp hx with rfl | hx2
      · exact hrb
      · exact h1 x hx2

/-- Membership of the decomposed entry. -/
theorem mapHasKey_of_decomp (l l1 l2 : List (String × β)) (k0 : String)
    (e0 : β) (h : l = l1 ++ (k0, e0) :: l2) : mapHasKey l k0 = true := by
  subst h
  simp [mapHasKey, List.any_eq_true]

/-- `set` never pushes the store above `maxEntries` when `maxEntries ≥ 1`. -/
theorem size_set_le (c : DOMCache α) (now : Nat) (url : String) (p : QueryShape)
    (d : α) (hm : 1 ≤ c.maxEntries) (h : c.size ≤ c.maxEntries) :
    (c.set now url p d).size ≤ c.maxEntries := by
  unfold DOMCache.size at h
  by_cases hcap : c.maxEntries ≤ c.entries.length ∧
      mapHasKey c.entries (generateKey url p) = false
  · have hlen : c.entries.length = c.maxEntries := le_antisymm h hcap.1
    have hne : c.entries ≠ [] := by
      intro h0
      rw [h0] at hlen
      simp at hlen
      omega
    obtain ⟨k0, e0, l1, l2, hfo, hdecomp, _, _⟩ := findOldestEntry_spec c.entries hne
    have hhas : mapHasKey c.entries k0 = true := mapHasKey_of_decomp _ _ _ _ _ hdecomp
    have hev : evictIfNeeded c (generateKey url p) = mapDelete c.entries k0 := by
      unfold evictIfNeeded
      rw [if_pos hcap, hfo]
    have hsz : (c.set now url p d).size
        = (mapSet (evictIfNeeded c (generateKey url p)) (generateKey url p)
            ⟨d, now, url, p.selector, p.searchText⟩).length := rfl
    rw [hsz, hev]
    have h1 : (mapDelete c.entries k0).length < c.entries.length :=
      length_mapDelete_lt _ _ hhas
    by_cases h2 : mapHasKey (mapDelete c.entries k0) (generateKey url p) = true
    · rw [length_mapSet_has _ _ _ h2]; omega
    · rw [length_mapSet_not_has _ _ _ (Bool.not_eq_true _ ▸ h2)]; omega
  · have hev : evictIfNeeded c (generateKey url p) = c.entries := by
      unfold evictIfNeeded
      rw [if_neg hcap]
    have hsz : (c.set now url p d).size
        = (mapSet (evictIfNeeded c (generateKey url p)) (generateKey url p)
            ⟨d, now, url, p.selector, p.searchText⟩).length := rfl
    rw [hsz, hev]
    by_cases h2 : mapHasKey c.entries (generateKey url p) = true
    · rw [length_mapSet_has _ _ _ h2]; exact h
    · have h2f : mapHasKey c.entries (generateKey url p) = false :=
        Bool.not_eq_true _ ▸ h2
      rw [length_mapSet_not_has _ _ _ h2f]
      have : ¬ c.maxEntries ≤ c.entries.length := fun hle => hcap ⟨hle, h2f⟩
      omega

/-- One operation of the cache's public surface, for stating invariants over
arbitrary call sequences. -/
inductive CacheOp (α : Type) where
  | get (now : Nat) (url : String) (p : QueryShape)
  | set (now : Nat) (url : String) (p : QueryShape) (d : α)
  | invalidate (url : Option String)
  | invalidateOlderThan (now ageSeconds : Nat)

/-- Apply one public operation to the cache state. -/
def applyOp (c : DOMCache α) : CacheOp α → DOMCache α
  | .get now url p => (c.get now url p).2
  | .set now url p d => c.set now url p d
  | .invalidate url => c.invalidate url
  | .invalidateOlderThan now s => c.invalidateOlderThan now s

/-- Apply a sequence of public operations. -/
def applyOps (c : DOMCache α) (ops : List (CacheOp α)) : DOMCache α :=
  ops.foldl applyOp c

/-- No operation changes `maxEntries`. -/
theorem applyOp_maxEntries (c : DOMCache α) (op : CacheOp α) :
    (applyOp c op).maxEntries = c.maxEntries := by
  cases op with
  | get now url p =>
    show ((c.get now url p).2).maxEntries = c.maxEntries
    unfold DOMCache.get
    split
    · rfl
    · split <;> rfl
  | set now url p d => rfl
  | invalidate url =>
    show (c.invalidate url).maxEntries = c.maxEntries
    unfold DOMCache.invalidate
    by_cases ht : truthyStr url = true
    · rw [if_pos ht]
    · rw [if_neg ht]
  | invalidateOlderThan now s => rfl

/-- No operation pushes the store above `maxEntries` when `maxEntries ≥ 1`. -/
theorem applyOp_size_le (c : DOMCache α) (op : CacheOp α)
    (hm : 1 ≤ c.maxEntries) (h : c.size ≤ c.maxEntries) :
    (applyOp c op).size ≤ c.maxEntries := by
  cases op with
  | get now url p =>
    show ((c.get now url p).2).size ≤ c.maxEntries
    unfold DOMCache.get
    split
    · exact h
    · split
      · show (mapDelete c.entries (generateKey url p)).length ≤ c.maxEntries
        calc (mapDelete c.entries (generateKey url p)).length
            ≤ c.entries.length := List.length_filter_le _ _
          _ ≤ c.maxEntries := h
      · exact h
  | set now url p d => exact size_set_le c now url p d hm h
  | invalidate url =>
    show (c.invalidate url).size ≤ c.maxEntries
    unfold DOMCache.invalidate
    by_cases ht : truthyStr url = true
    · rw [if_pos ht]
      show (c.entries.filter _).length ≤ c.maxEntries
      calc (c.entries.filter _).length
          ≤ c.entries.length := List.length_filter_le _ _
        _ ≤ c.maxEntries := h
    · rw [if_neg ht]
      exact Nat.zero_le _
  | invalidateOlderThan now s =>
    show (c.invalidateOlderThan now s).size ≤ c.maxEntries
    show (c.entries.filter _).length ≤ c.maxEntries
    calc (c.entries.filter _).length
        ≤ c.entries.length := List.length_filter_le _ _
      _ ≤ c.maxEntries := h

/-- The size bound holds for every sequence of public operations on a cache
constructed with `maxEntries ≥ 1`. -/
theorem size_applyOps_le (a m : Nat) (hm : 1 ≤ m) (ops : List (CacheOp α)) :
    (applyOps (DOMCache.new a m : DOMCache α) ops).size ≤ m := by
  suffices hgen : ∀ c : DOMCache α, c.maxEntries = m → c.size ≤ m →
      (applyOps c ops).size ≤ m by
    exact hgen _ rfl (by simp [DOMCache.new, DOMCache.size])
  induction ops with
  | nil => intro c _ h2; exact h2
  | cons op t ih =>
    intro c h1 h2
    refine ih (applyOp c op) (by rw [applyOp_maxEntries, h1]) ?_
    have := applyOp_size_le c op (h1 ▸ hm) (h1 ▸ h2)
    rwa [h1] at this

/-- C3 counterexample: the claim quantifies over every `maxEntries`, but with
`maxEntries = 0` a single `set` on a fresh cache leaves the (empty) store with
one entry, exceeding `maxEntries`. -/
theorem c3_size_bound_counterexample :
    (applyOps (DOMCache.new 60 0 : DOMCache Nat) [CacheOp.set 5 "u" {} 7]).size
      > (DOMCache.new 60 0 : DOMCache Nat).maxEntries := by
  decide

/-- C3 (amended): provided `maxEntries ≥ 1`, (1) no sequence of get/set/
invalidate/invalidateOlderThan operations pushes the store above `maxEntries`;
(2) a `set` of a fresh key on a store holding exactly `maxEntries` entries
(with pairwise-distinct keys) evicts exactly one entry — the first entry
attaining the smallest `createdAt` timestamp in iteration order — before
inserting, leaving the store at `maxEntries`; (3) a `set` under an existing
key evicts nothing, keeps the size, and overwrites the entry, refreshing its
timestamp. -/
theorem c3_capacity_eviction_amended (α : Type) :
    (∀ (a m : Nat) (ops : List (CacheOp α)), 1 ≤ m →
        (applyOps (DOMCache.new a m : DOMCache α) ops).size ≤ m) ∧
    (∀ (c : DOMCache α) (now : Nat) (url : String) (p : QueryShape) (d : α),
        keysNodup c.entries → c.size = c.maxEntries → 1 ≤ c.maxEntries →
        mapHasKey c.entries (generateKey url p) = false →
        ∃ k0 e0 l1 l2,
          c.entries = l1 ++ (k0, e0) :: l2 ∧
          (∀ kv ∈ l1, e0.timestamp < kv.2.timestamp) ∧
          (∀ kv ∈ l2, e0.timestamp ≤ kv.2.timestamp) ∧
          (c.set now url p d).entries
            = mapSet (mapDelete c.entries k0) (generateKey url p)
                ⟨d, now, url, p.selector, p.searchText⟩ ∧
          (c.set now url p d).size = c.maxEntries) ∧
    (∀ (c : DOMCache α) (now : Nat) (url : String) (p : QueryShape) (d : α),
        mapHasKey c.entries (generateKey url p) = true →
        (c.set now url p d).entries
          = mapSet c.entries (generateKey url p)
              ⟨d, now, url, p.selector, p.searchText⟩ ∧
        (c.set now url p d).size = c.size ∧
        mapGet (c.set now url p d).entries (generateKey url p)
          = some ⟨d, now, url, p.selector, p.searchText⟩) := by
  refine ⟨fun a m ops hm => size_applyOps_le a m hm ops, ?_, ?_⟩
  · intro c now url p d hn hsz hm hhas
    have hlen : c.entries.length = c.maxEntries := hsz
    have hne : c.entries ≠ [] := by
      intro h0
      rw [h0] at hlen
      simp at hlen
      omega
    obtain ⟨k0, e0, l1, l2, hfo, hdecomp, h1, h2⟩ := findOldestEntry_spec c.entries hne
    have hk0 : mapHasKey c.entries k0 = true := mapHasKey_of_decomp _ _ _ _ _ hdecomp
    have hcap : c.maxEntries ≤ c.entries.length ∧
        mapHasKey c.entries (generateKey url p) = false := ⟨le_of_eq hlen.symm, hhas⟩
    have hev : evictIfNeeded c (generateKey url p) = mapDelete c.entries k0 := by
      unfold evictIfNeeded
      rw [if_pos hcap, hfo]
    refine ⟨k0, e0, l1, l2, hdecomp, h1, h2, ?_, ?_⟩
    · rw [set_entries_eq, hev]
    · have hdel : (mapDelete c.entries k0).length + 1 = c.entries.length :=
        length_mapDelete_nodup _ _ hn hk0
      have hhas2 : mapHasKey (mapDelete c.entries k0) (generateKey url p) = false :=
        mapHasKey_mapDelete_of_not_has _ _ _ hhas
      have hsz2 : (c.set now url p d).size
          = (mapSet (mapDelete c.entries k0) (generateKey url p)
              ⟨d, now, url, p.selector, p.searchText⟩).length := by
        show (mapSet (evictIfNeeded c (generateKey url p)) (generateKey url p)
            ⟨d, now, url, p.selector, p.searchText⟩).length = _
        rw [hev]
      rw [hsz2, length_mapSet_not_has _ _ _ hhas2]
      omega
  · intro c now url p d hhas
    have hcap : ¬ (c.maxEntries ≤ c.entries.length ∧
        mapHasKey c.entries (generateKey url p) = false) := by
      rintro ⟨-, hfalse⟩
      rw [hhas] at hfalse
      simp at hfalse
    have hev : evictIfNeeded c (generateKey url p) = c.entries := by
      unfold evictIfNeeded
      rw [if_neg hcap]
    refine ⟨by rw [set_entries_eq, hev], ?_, ?_⟩
    · show (mapSet (evictIfNeeded c (generateKey url p)) (generateKey url p)
          ⟨d, now, url, p.selector, p.searchText⟩).length = c.entries.length
      rw [hev, length_mapSet_has _ _ _ hhas]
    · rw [set_entries_eq, mapGet_mapSet_self]

/-- C3 witness at concrete inputs: a two-`set` sequence on a capacity-1 cache
stays at size 1, and an overwriting `set` refreshes the stored entry. -/
theorem c3_capacity_eviction_amended_witness :
    (applyOps (DOMCache.new 60 1 : DOMCache Nat)
        [CacheOp.set 5 "u" {} 7, CacheOp.set 6 "v" {} 8]).size ≤ 1 ∧
    mapGet (((DOMCache.new 60 1 : DOMCache Nat).set 5 "u" {} 7).set 9 "u" {} 8).entries
        (generateKey "u" {}) = some ⟨8, 9, "u", none, none⟩ :=
  ⟨(c3_capacity_eviction_amended Nat).1 60 1
      [CacheOp.set 5 "u" {} 7, CacheOp.set 6 "v" {} 8] (by decide),
    ((c3_capacity_eviction_amended Nat).2.2
      ((DOMCache.new 60 1 : DOMCache Nat).set 5 "u" {} 7) 9 "u" {} 8 (by decide)).2.2⟩

/-- With pairwise-distinct keys, two entries of the map sharing a key are the
same entry. -/
theorem entry_eq_of_keysNodup (l : List (String × β)) (hn : keysNodup l)
    (kv kv2 : String × β) (h1 : kv ∈ l) (h2 : kv2 ∈ l) (hk : kv2.1 = kv.1) :
    kv2 = kv :=
  List.inj_on_of_nodup_map hn h2 h1 hk

/-- C8 counterexample: the claim quantifies over every url, but
`invalidate('')` takes the code's falsy branch and clears the whole store, so
an entry whose stored pageIdentity is `"x"` (different from `""`) is removed
rather than left unchanged. -/
theorem c8_invalidate_counterexample :
    (((DOMCache.new 60 100 : DOMCache Nat).set 0 "x" {} 1).invalidate
        (some "")).entries = [] ∧
    ((DOMCache.new 60 100 : DOMCache Nat).set 0 "x" {} 1).entries ≠ [] := by
  decide

/-- C8 (amended): for every non-empty url, `invalidate(url)` removes exactly
the entries whose stored `pageIdentity` equals the url (assuming the JS-Map
invariant of pairwise-distinct keys) and leaves every other entry unchanged;
`invalidate()` with no argument clears the entire store (`size` becomes 0) and
calling it again is a no-op.  Both calls are total functions and never
error. -/
theorem c8_invalidate_amended (c : DOMCache α) :
    (∀ u : String, u ≠ "" → keysNodup c.entries →
        (c.invalidate (some u)).entries
          = c.entries.filter (fun kv => !(kv.2.url == u))) ∧
    (c.invalidate none).entries = [] ∧
    (c.invalidate none).size = 0 ∧
    (c.invalidate none).invalidate none = c.invalidate none := by
  refine ⟨?_, rfl, rfl, rfl⟩
  intro u hu hn
  have ht : truthyStr (some u) = true := by
    simp [truthyStr, hu]
  have hinv : (c.invalidate (some u)).entries
      = c.entries.filter (fun kv =>
          !(((c.entries.filter (fun kv2 => kv2.2.url == orEmpty (some u))).map
              (·.1)).contains kv.1)) := by
    unfold DOMCache.invalidate
    rw [if_pos ht]
  rw [hinv]
  apply List.filter_congr
  intro kv hkv
  have horEmpty : orEmpty (some u) = u := rfl
  rw [horEmpty]
  by_cases hurl : kv.2.url = u
  · have hmem : kv.1 ∈ (c.entries.filter (fun kv2 => kv2.2.url == u)).map (·.1) :=
      List.mem_map_of_mem _ (List.mem_filter.mpr ⟨hkv, by simp [hurl]⟩)
    have hcont : ((c.entries.filter (fun kv2 => kv2.2.url == u)).map (·.1)).contains
        kv.1 = true := List.elem_iff.mpr hmem
    rw [hcont]
    simp [hurl]
  · have hmem : kv.1 ∉ (c.entries.filter (fun kv2 => kv2.2.url == u)).map (·.1) := by
      intro hmem
      obtain ⟨kv2, hkv2, hfst⟩ := List.mem_map.mp hmem
      have hkv2e := List.mem_filter.mp hkv2
      have heq : kv2 = kv := entry_eq_of_keysNodup _ hn kv kv2 hkv hkv2e.1 hfst
      rw [heq] at hkv2e
      exact hurl (by simpa using hkv2e.2)
    have hcont : ((c.entries.filter (fun kv2 => kv2.2.url == u)).map (·.1)).contains
        kv.1 = false := by
      rw [← Bool.not_eq_true]
      intro hc
      exact hmem (List.elem_iff.mp hc)
    rw [hcont]
    simp [hurl]

/-- C8 witness at a concrete two-entry cache: url-scoped invalidation keeps
exactly the entry stored for the other page, and the no-argument clear
empties the store idempotently. -/
theorem c8_invalidate_amended_witness :
    ((((DOMCache.new 60 100 : DOMCache Nat).set 1 "x" {} 10).set 2 "y"
          { selector := some "s" } 20).invalidate (some "x")).entries
      = (((DOMCache.new 60 100 : DOMCache Nat).set 1 "x" {} 10).set 2 "y"
          { selector := some "s" } 20).entries.filter (fun kv => !(kv.2.url == "x")) ∧
    (((DOMCache.new 60 100 : DOMCache Nat).invalidate none)).size = 0 :=
  ⟨(c8_invalidate_amended _).1 "x" (by decide) (by decide),
    (c8_invalidate_amended (DOMCache.new 60 100 : DOMCache Nat)).2.2.1⟩

/-- Input of the `browser_clear_cache` tool:
`{ url?: string, olderThanSeconds?: number }`. -/
structure ClearCacheParams where
  url : Option String := none
  olderThanSeconds : Option Nat := none
deriving DecidableEq

/-- The `browser_clear_cache` handler from `src/tools/cache.ts`:
`if (params.olderThanSeconds) ... else if (params.url) ... else` — both
branch conditions use JS truthiness. -/
def clearCacheHandle (c : DOMCache α) (now : Nat) (p : ClearCacheParams) :
    DOMCache α :=
  if truthyNum p.olderThanSeconds then
    c.invalidateOlderThan now (p.olderThanSeconds.getD 0)
  else if truthyStr p.url then
    c.invalidate p.url
  else
    c.invalidate none

/-- C10: the `browser_clear_cache` handler treats `olderThanSeconds = 0`
exactly like an absent parameter (the branch tests truthiness): with a
(non-empty) url it performs the URL-scoped clear, and otherwise it clears the
entire cache; no age-based prune with threshold 0 happens. -/
theorem c10_clear_cache_zero (c : DOMCache α) (now : Nat) (u : Option String) :
    clearCacheHandle c now ⟨u, some 0⟩ = clearCacheHandle c now ⟨u, none⟩ ∧
    (∀ s : String, s ≠ "" →
        clearCacheHandle c now ⟨some s, some 0⟩ = c.invalidate (some s)) ∧
    clearCacheHandle c now ⟨none, some 0⟩ = c.invalidate none := by
  refine ⟨rfl, ?_, rfl⟩
  intro s hs
  have ht : truthyStr (some s) = true := by simp [truthyStr, hs]
  unfold clearCacheHandle
  simp only [truthyNum]
  rw [if_neg (by simp), if_pos ht]

/-- C10 witness at a concrete cache and a concrete url. -/
theorem c10_clear_cache_zero_witness :
    clearCacheHandle ((DOMCache.new 60 100 : DOMCache Nat).set 0 "x" {} 1) 5
        ⟨some "x", some 0⟩
      = ((DOMCache.new 60 100 : DOMCache Nat).set 0 "x" {} 1).invalidate
          (some "x") :=
  (c10_clear_cache_zero ((DOMCache.new 60 100 : DOMCache Nat).set 0 "x" {} 1) 5
      (some "x")).2.1 "x" (by decide)

/-- Input of the `browser_query_dom` tool (the fields the handler consults
for control flow and cache keying; `includeAttributes` and `maxTextLength`
only shape the per-element output and never reach the cache key). -/
structure QueryParams where
  selector : Option String := none
  searchText : Option String := none
  limit : Option Nat := none
  offset : Option Nat := none
  useCache : Bool := true
  forceRefresh : Bool := false
deriving DecidableEq

/-- The query shape the handler passes to `domCache.get`/`domCache.set`:
`{ selector: params.selector, searchText: params.searchText, offset, limit }`
with `limit = Math.min(params.limit || 20, 100)` and
`offset = params.offset || 0`. -/
def queryShapeOf (p : QueryParams) : QueryShape :=
  ⟨p.selector, p.searchText, some (numOr p.offset 0),
    some (min (numOr p.limit 20) 100)⟩

/-- The `browser_query_dom` handler from `src/tools/cache.ts`.  Control flow:
(1) if `useCache && !forceRefresh`, consult the cache first and return a hit
annotated `fromCache = true` (the `Bool` in the result); (2) otherwise build
the query script — throwing `'Either selector or searchText must be
provided'` when neither `selector` nor `searchText` is truthy; (3) evaluate
it in the page (the opaque outcome is the `evalResult` argument) and
propagate a failure unchanged; (4) on success store the result when
`useCache` and return it annotated `fromCache = false`.  The second component
is the cache state after the call. -/
def queryDomHandle (c : DOMCache α) (now : Nat) (currentUrl : String)
    (p : QueryParams) (evalResult : Except String α) :
    Except String (α × Bool) × DOMCache α :=
  if p.useCache && !p.forceRefresh then
    match c.get now currentUrl (queryShapeOf p) with
    | (some cached, c1) => (Except.ok (cached, true), c1)
    | (none, c1) =>
      if truthyStr p.selector || truthyStr p.searchText then
        match evalResult with
        | Except.error e => (Except.error e, c1)
        | Except.ok r =>
          (Except.ok (r, false), c1.set now currentUrl (queryShapeOf p) r)
      else
        (Except.error "Either selector or searchText must be provided", c1)
  else
    if truthyStr p.selector || truthyStr p.searchText then
      match evalResult with
      | Except.error e => (Except.error e, c)
      | Except.ok r =>
        (Except.ok (r, false),
          if p.useCache then c.set now currentUrl (queryShapeOf p) r else c)
    else
      (Except.error "Either selector or searchText must be provided", c)

instance {ε α : Type} [DecidableEq ε] [DecidableEq α] :
    DecidableEq (Except ε α) := fun a b =>
  match a, b with
  | Except.error e1, Except.error e2 =>
    if h : e1 = e2 then isTrue (by rw [h])
    else isFalse (by intro hc; cases hc; exact h rfl)
  | Except.error _, Except.ok _ => isFalse (by intro hc; cases hc)
  | Except.ok _, Except.error _ => isFalse (by intro hc; cases hc)
  | Except.ok a1, Except.ok a2 =>
    if h : a1 = a2 then isTrue (by rw [h])
    else isFalse (by intro hc; cases hc; exact h rfl)

/-- C6 counterexample: the handler consults the cache before validating the
arguments, and the key derivation collides across shapes, so a call with
neither `selector` nor `searchText` can be served from the cache instead of
failing.  Here a legitimate query for page `"a"` with `searchText = ":"` is
stored under the same key (`"a::::0:20"`) that a parameterless query against
page `"a:"` computes, and the second call succeeds from the cache (even
though its own evaluation, never reached, would have failed). -/
theorem c6_missing_args_counterexample :
    (queryDomHandle
        ((queryDomHandle (DOMCache.new 60 100 : DOMCache Nat) 5 "a"
            { searchText := some ":" } (Except.ok 42)).2)
        6 "a:" {} (Except.error "boom")).1
      = Except.ok (42, true) := by
  decide

/-- C6 (amended): when neither `selector` nor `searchText` is truthy, the
call writes nothing to the cache, and it fails with the InvalidArgument error
unless the pre-validation cache lookup (performed only when
`useCache && !forceRefresh`) hits, in which case the cached payload is served
with `fromCache = true`. -/
theorem c6_missing_args_amended (c : DOMCache α) (now : Nat) (url : String)
    (p : QueryParams) (ev : Except String α)
    (hs : truthyStr p.selector = false) (ht : truthyStr p.searchText = false) :
    ((p.useCache && !p.forceRefresh) = false →
        queryDomHandle c now url p ev
          = (Except.error "Either selector or searchText must be provided", c)) ∧
    ((p.useCache && !p.forceRefresh) = true →
        (c.get now url (queryShapeOf p)).1 = none →
        queryDomHandle c now url p ev
          = (Except.error "Either selector or searchText must be provided",
              (c.get now url (queryShapeOf p)).2)) ∧
    ((p.useCache && !p.forceRefresh) = true →
        ∀ a, (c.get now url (queryShapeOf p)).1 = some a →
        queryDomHandle c now url p ev
          = (Except.ok (a, true), (c.get now url (queryShapeOf p)).2)) := by
  refine ⟨?_, ?_, ?_⟩
  · intro h
    simp [queryDomHandle, h, hs, ht]
  · intro h hmiss
    rcases hg : c.get now url (queryShapeOf p) with ⟨o, c1⟩
    rw [hg] at hmiss
    simp only at hmiss
    subst hmiss
    simp [queryDomHandle, h, hg, hs, ht]
  · intro h a hhit
    rcases hg : c.get now url (queryShapeOf p) with ⟨o, c1⟩
    rw [hg] at hhit
    simp only at hhit
    subst hhit
    simp [queryDomHandle, h, hg]

/-- C6 witness: a missing-argument call with caching disabled fails with the
InvalidArgument error and leaves the cache untouched. -/
theorem c6_missing_args_amended_witness :
    queryDomHandle ((DOMCache.new 60 100 : DOMCache Nat).set 0 "u"
          (queryShapeOf { selector := some "s" }) 1) 5 "u"
        { useCache := false } (Except.ok 9)
      = (Except.error "Either selector or searchText must be provided",
          (DOMCache.new 60 100 : DOMCache Nat).set 0 "u"
            (queryShapeOf { selector := some "s" }) 1) :=
  (c6_missing_args_amended _ 5 "u" { useCache := false } (Except.ok 9)
      (by decide) (by decide)).1 (by decide)

/-- C7 counterexample: the claim says a throwing evaluation leaves the cache
state exactly as it was, but the pre-evaluation cache lookup lazily deletes
an expired entry, so the state can change even though the error propagates
unchanged: here the store held one (expired) entry before the call and none
after it. -/
theorem c7_eval_error_counterexample :
    (queryDomHandle ((DOMCache.new 60 100 : DOMCache Nat).set 0 "u"
          (queryShapeOf { selector := some "s" }) 1) 60001 "u"
        { selector := some "s" } (Except.error "bad selector")).1
      = Except.error "bad selector" ∧
    (queryDomHandle ((DOMCache.new 60 100 : DOMCache Nat).set 0 "u"
          (queryShapeOf { selector := some "s" }) 1) 60001 "u"
        { selector := some "s" } (Except.error "bad selector")).2
      ≠ (DOMCache.new 60 100 : DOMCache Nat).set 0 "u"
          (queryShapeOf { selector := some "s" }) 1 := by
  refine ⟨by decide, by decide⟩

/-- C7 (amended): when document evaluation fails, the error propagates to the
caller unchanged and no entry is written; the final cache state is exactly
the state after the pre-evaluation cache lookup — identical to the pre-call
state except possibly for the lazy deletion of one expired entry — and is
exactly the pre-call state when the cache check is skipped
(`useCache = false` or `forceRefresh = true`). -/
theorem c7_eval_error_amended (c : DOMCache α) (now : Nat) (url : String)
    (p : QueryParams) (e : String)
    (hargs : (truthyStr p.selector || truthyStr p.searchText) = true) :
    ((p.useCache && !p.forceRefresh) = false →
        queryDomHandle c now url p (Except.error e) = (Except.error e, c)) ∧
    ((p.useCache && !p.forceRefresh) = true →
        (c.get now url (queryShapeOf p)).1 = none →
        queryDomHandle c now url p (Except.error e)
          = (Except.error e, (c.get now url (queryShapeOf p)).2)) := by
  refine ⟨?_, ?_⟩
  · intro h
    simp [queryDomHandle, h, hargs]
  · intro h hmiss
    rcases hg : c.get now url (queryShapeOf p) with ⟨o, c1⟩
    rw [hg] at hmiss
    simp only at hmiss
    subst hmiss
    simp [queryDomHandle, h, hg, hargs]

/-- C7 witness: with caching disabled the evaluation error is propagated and
the cache is exactly the pre-call state. -/
theorem c7_eval_error_amended_witness :
    queryDomHandle ((DOMCache.new 60 100 : DOMCache Nat).set 0 "u"
          (queryShapeOf { selector := some "s" }) 1) 5 "u"
        { selector := some "s", useCache := false } (Except.error "boom")
      = (Except.error "boom",
          (DOMCache.new 60 100 : DOMCache Nat).set 0 "u"
            (queryShapeOf { selector := some "s" }) 1) :=
  (c7_eval_error_amended _ 5 "u" { selector := some "s", useCache := false }
      "boom" (by decide)).1 (by decide)

/-- Lower-casing of a character list (JS `toLowerCase`, ASCII as in
`Char.toLower`). -/
def lowerChars (s : List Char) : List Char :=
  s.map Char.toLower

/-- A regex word character (`\w` is `[A-Za-z0-9_]`). -/
def isWordChar (c : Char) : Bool :=
  c.isAlphanum || c == '_'

/-- Word-ness of the character at a position; out of range counts as
non-word. -/
def wordAt (s : List Char) (i : Nat) : Bool :=
  match s[i]? with
  | some c => isWordChar c
  | none => false

/-- A `\b` word boundary holds at position `i` when word-ness changes between
the characters at `i - 1` and `i`. -/
def boundaryAt (s : List Char) (i : Nat) : Bool :=
  (if i = 0 then false else wordAt s (i - 1)) != wordAt s i

/-- The scoring regex
`new RegExp('\\b' + searchText + '\\b', 'i').test(directText)` for a
searchText without regex metacharacters: some position of the text matches
the (already lower-cased) pattern case-insensitively with word boundaries on
both sides. -/
def wbTest (hay pat : List Char) : Bool :=
  (List.range (hay.length + 1)).any fun i =>
    pat.isPrefixOf ((lowerChars hay).drop i) && boundaryAt hay i &&
      boundaryAt hay (i + pat.length)

/-- JS `String.prototype.includes` on character lists. -/
def containsSub : List Char → List Char → Bool
  | [], pat => pat.isEmpty
  | c :: t, pat => pat.isPrefixOf (c :: t) || containsSub t pat

/-- An element of the scanned document, as consumed by the search script: its
tag name, its *direct* text (the concatenation of its immediate text-node
children only), its attribute values, and its bounding-box dimensions. -/
structure Element where
  tagName : String
  directText : String
  attributes : List (String × String)
  width : Nat
  height : Nat
deriving DecidableEq

/-- The semantic-tag bonus list
`['h1','h2','h3','h4','h5','h6','button','a','label']`. -/
def semanticTags : List (List Char) :=
  ["h1".data, "h2".data, "h3".data, "h4".data, "h5".data, "h6".data,
    "button".data, "a".data, "label".data]

/-- Match predicate of the search script: the element's direct text contains
the search text, or some attribute value does (both lower-cased). -/
def elementMatches (pat : List Char) (el : Element) : Bool :=
  containsSub (lowerChars el.directText.data) pat ||
    el.attributes.any fun attr => containsSub (lowerChars attr.2.data) pat

/-- `if (rect.width > 0 && rect.height > 0) score += 5`. -/
def visBonus (el : Element) : Nat :=
  if 0 < el.width ∧ 0 < el.height then 5 else 0

/-- `if (['h1',...,'label'].includes(tagName)) score += 10`. -/
def tagBonus (el : Element) : Nat :=
  if semanticTags.contains (lowerChars el.tagName.data) then 10 else 0

/-- The relevance score of the search script: exactly one of the four
text-match tiers (exact 100 / starts-with 50 / word-boundary 30 /
substring 10, each tested on the lower-cased direct text against the
lower-cased search text), plus the visibility and semantic-tag bonuses. -/
def relevanceScore (pat : List Char) (el : Element) : Nat :=
  (if lowerChars el.directText.data = pat then 100
    else if pat.isPrefixOf (lowerChars el.directText.data) then 50
    else if wbTest el.directText.data pat then 30
    else if containsSub (lowerChars el.directText.data) pat then 10
    else 0) + visBonus el + tagBonus el

/-- One entry of the script's `matches` array:
`{ element: el, score: score, text: directText }`. -/
structure SMatch where
  element : Element
  score : Nat
  text : String
deriving DecidableEq

/-- The match-collection loop: scan the document in DOM order, skip script
and style elements, and record every matching element with its score and its
direct text. -/
def searchMatches (pat : List Char) (doc : List Element) : List SMatch :=
  doc.filterMap fun el =>
    if lowerChars el.tagName.data = "script".data ∨
        lowerChars el.tagName.data = "style".data then none
    else if elementMatches pat el then
      some ⟨el, relevanceScore pat el, el.directText⟩
    else none

/-- Insert a match into a descending-by-score list, after all entries with a
score ≥ its own (so equal scores keep their original order). -/
def insertDesc (x : SMatch) : List SMatch → List SMatch
  | [] => [x]
  | y :: ys => if y.score < x.score then x :: y :: ys else y :: insertDesc x ys

/-- `matches.sort((a, b) => b.score - a.score)`: a stable descending sort by
score (JS `Array.prototype.sort` is stable, so any stable descending sort is
extensionally the same function). -/
def sortDesc (l : List SMatch) : List SMatch :=
  l.foldl (fun acc x => insertDesc x acc) []

/-- The result envelope of the search path (element descriptors are kept as
the scored matches; the per-element presentation fields — index, visibility,
attribute echo, ref tagging, text truncation — are not modelled, no claim
concerns them). -/
structure SearchResult where
  totalCount : Nat
  offset : Nat
  limit : Nat
  returnedCount : Nat
  hasMore : Bool
  elements : List SMatch
deriving DecidableEq

/-- The search path of the `browser_query_dom` script: lower-case the search
text, collect and score matches in DOM order, sort by descending score,
paginate with `slice(offset, offset + limit)`, and report
`hasMore = offset + limit < totalCount`. -/
def searchQuery (doc : List Element) (searchText : String)
    (offset limit : Nat) : SearchResult where
  totalCount := (sortDesc (searchMatches (lowerChars searchText.data) doc)).length
  offset := offset
  limit := limit
  returnedCount :=
    (((sortDesc (searchMatches (lowerChars searchText.data) doc)).drop
        offset).take limit).length
  hasMore :=
    decide (offset + limit
      < (sortDesc (searchMatches (lowerChars searchText.data) doc)).length)
  elements :=
    ((sortDesc (searchMatches (lowerChars searchText.data) doc)).drop
        offset).take limit

/-- Every list is a prefix of itself (boolean `isPrefixOf`). -/
theorem isPrefixOf_self_eq_true (l : List Char) : l.isPrefixOf l = true := by
  induction l with
  | nil => rfl
  | cons c t ih => simp [List.isPrefixOf, ih]

/-- A prefix is a substring. -/
theorem containsSub_of_isPrefixOf (hay pat : List Char)
    (h : pat.isPrefixOf hay = true) : containsSub hay pat = true := by
  cases hay with
  | nil =>
    cases pat with
    | nil => rfl
    | cons c t => simp [List.isPrefixOf] at h
  | cons c t => simp [containsSub, h]

/-- A prefix of any suffix is a substring. -/
theorem containsSub_of_isPrefixOf_drop (hay pat : List Char) (i : Nat)
    (h : pat.isPrefixOf (hay.drop i) = true) : containsSub hay pat = true := by
  induction hay generalizing i with
  | nil =>
    rw [List.drop_nil] at h
    exact containsSub_of_isPrefixOf [] pat h
  | cons c t ih =>
    cases i with
    | zero => exact containsSub_of_isPrefixOf _ pat h
    | succ n =>
      rw [List.drop_succ_cons] at h
      simp [containsSub, ih n h]

/-- A word-boundary match implies substring containment (of the lower-cased
text). -/
theorem containsSub_of_wbTest (hay pat : List Char)
    (h : wbTest hay pat = true) : containsSub (lowerChars hay) pat = true := by
  unfold wbTest at h
  rw [List.any_eq_true] at h
  obtain ⟨i, _, hcond⟩ := h
  have hpre : pat.isPrefixOf ((lowerChars hay).drop i) = true := by
    rcases Bool.and_eq_true_iff.mp hcond with ⟨hc1, -⟩
    exact (Bool.and_eq_true_iff.mp hc1).1
  exact containsSub_of_isPrefixOf_drop _ pat i hpre

/-- C4: every matched element's relevance score is additive from exactly one
of the four mutually exclusive, case-insensitive text tiers on its direct
text — 100 for exact equality, else 50 for starts-with, else 30 for a
word-boundary match, else 10 for mere substring containment — plus the +5
non-zero-box bonus and the +10 semantic-tag bonus; an element whose direct
text does not contain the search text at all (matching only via an attribute
value) still qualifies as a match, with a score consisting only of the
bonuses. -/
theorem c4_relevance_scoring (pat : List Char) (el : Element) :
    (lowerChars el.directText.data = pat →
        relevanceScore pat el = 100 + visBonus el + tagBonus el) ∧
    (lowerChars el.directText.data ≠ pat →
        pat.isPrefixOf (lowerChars el.directText.data) = true →
        relevanceScore pat el = 50 + visBonus el + tagBonus el) ∧
    (lowerChars el.directText.data ≠ pat →
        pat.isPrefixOf (lowerChars el.directText.data) = false →
        wbTest el.directText.data pat = true →
        relevanceScore pat el = 30 + visBonus el + tagBonus el) ∧
    (pat.isPrefixOf (lowerChars el.directText.data) = false →
        wbTest el.directText.data pat = false →
        containsSub (lowerChars el.directText.data) pat = true →
        relevanceScore pat el = 10 + visBonus el + tagBonus el) ∧
    (containsSub (lowerChars el.directText.data) pat = false →
        relevanceScore pat el = visBonus el + tagBonus el) ∧
    (∀ doc : List Element, el ∈ doc →
        lowerChars el.tagName.data ≠ "script".data →
        lowerChars el.tagName.data ≠ "style".data →
        elementMatches pat el = true →
        (⟨el, relevanceScore pat el, el.directText⟩ : SMatch)
          ∈ searchMatches pat doc) := by
  refine ⟨?_, ?_, ?_, ?_, ?_, ?_⟩
  · intro hexact
    unfold relevanceScore
    rw [if_pos hexact]
  · intro hne hpre
    unfold relevanceScore
    rw [if_neg hne, if_pos hpre]
  · intro hne hpre hwb
    unfold relevanceScore
    rw [if_neg hne, if_neg (by simp [hpre]), if_pos hwb]
  · intro hpre hwb hcont
    have hne : lowerChars el.directText.data ≠ pat := by
      intro he
      rw [he] at hpre
      rw [isPrefixOf_self_eq_true pat] at hpre
      cases hpre
    unfold relevanceScore
    rw [if_neg hne, if_neg (by simp [hpre]), if_neg (by simp [hwb]),
      if_pos hcont]
  · intro hcont
    have hne : lowerChars el.directText.data ≠ pat := by
      intro he
      rw [he] at hcont
      rw [containsSub_of_isPrefixOf _ _ (isPrefixOf_self_eq_true pat)] at hcont
      cases hcont
    have hpre : pat.isPrefixOf (lowerChars el.directText.data) = false := by
      by_contra hc
      rw [Bool.not_eq_false] at hc
      rw [containsSub_of_isPrefixOf _ _ hc] at hcont
      cases hcont
    have hwb : wbTest el.directText.data pat = false := by
      by_contra hc
      rw [Bool.not_eq_false] at hc
      rw [containsSub_of_wbTest _ _ hc] at hcont
      cases hcont
    unfold relevanceScore
    rw [if_neg hne, if_neg (by simp [hpre]), if_neg (by simp [hwb]),
      if_neg (by simp [hcont])]
    omega
  · intro doc hel hscript hstyle hmatch
    refine List.mem_filterMap.mpr ⟨el, hel, ?_⟩
    rw [if_neg (by rintro (h | h) <;> [exact hscript h; exact hstyle h]),
      if_pos hmatch]

/-- C4 witness: a visible `BUTTON` whose direct text is exactly the search
text scores 100 + 5 + 10. -/
theorem c4_relevance_scoring_witness :
    relevanceScore "submit".data ⟨"BUTTON", "Submit", [], 2, 3⟩
      = 100 + visBonus ⟨"BUTTON", "Submit", [], 2, 3⟩
          + tagBonus ⟨"BUTTON", "Submit", [], 2, 3⟩ :=
  (c4_relevance_scoring "submit".data ⟨"BUTTON", "Submit", [], 2, 3⟩).1
    (by decide)

/-- Membership through `insertDesc`. -/
theorem mem_insertDesc (x z : SMatch) (l : List SMatch) :
    z ∈ insertDesc x l ↔ z = x ∨ z ∈ l := by
  induction l with
  | nil => simp [insertDesc]
  | cons y ys ih =>
    by_cases h : y.score < x.score
    · rw [show insertDesc x (y :: ys) = x :: y :: ys by simp [insertDesc, h]]
      simp only [List.mem_cons]
    · rw [show insertDesc x (y :: ys) = y :: insertDesc x ys by
        simp [insertDesc, h]]
      simp only [List.mem_cons, ih]
      tauto

/-- `insertDesc` preserves descending-by-score sortedness. -/
theorem insertDesc_sorted (x : SMatch) (l : List SMatch)
    (h : List.Sorted (fun a b : SMatch => b.score ≤ a.score) l) :
    List.Sorted (fun a b : SMatch => b.score ≤ a.score) (insertDesc x l) := by
  induction l with
  | nil => simp [insertDesc]
  | cons y ys ih =>
    rw [List.sorted_cons] at h
    by_cases hlt : y.score < x.score
    · rw [show insertDesc x (y :: ys) = x :: y :: ys by simp [insertDesc, hlt]]
      rw [List.sorted_cons]
      refine ⟨?_, List.sorted_cons.mpr h⟩
      intro b hb
      rcases List.mem_cons.mp hb with rfl | hb2
      · omega
      · have := h.1 b hb2
        omega
    · rw [show insertDesc x (y :: ys) = y :: insertDesc x ys by
        simp [insertDesc, hlt]]
      rw [List.sorted_cons]
      refine ⟨?_, ih h.2⟩
      intro b hb
      rcases (mem_insertDesc x b ys).mp hb with rfl | hb2
      · omega
      · exact h.1 b hb2

/-- `sortDesc` produces a list sorted by weakly descending score. -/
theorem sortDesc_sorted_aux (l acc : List SMatch)
    (h : List.Sorted (fun a b : SMatch => b.score ≤ a.score) acc) :
    List.Sorted (fun a b : SMatch => b.score ≤ a.score)
      (l.foldl (fun a x => insertDesc x a) acc) := by
  induction l generalizing acc with
  | nil => exact h
  | cons x t ih => exact ih _ (insertDesc_sorted x acc h)

/-- The sorted match list is sorted by weakly descending score. -/
theorem sortDesc_sorted (l : List SMatch) :
    List.Sorted (fun a b : SMatch => b.score ≤ a.score) (sortDesc l) :=
  sortDesc_sorted_aux l [] (by simp)

/-- `insertDesc` is a permutation of consing. -/
theorem insertDesc_perm (x : SMatch) (l : List SMatch) :
    List.Perm (insertDesc x l) (x :: l) := by
  induction l with
  | nil => simp [insertDesc]
  | cons y ys ih =>
    by_cases hlt : y.score < x.score
    · rw [show insertDesc x (y :: ys) = x :: y :: ys by simp [insertDesc, hlt]]
    · rw [show insertDesc x (y :: ys) = y :: insertDesc x ys by
        simp [insertDesc, hlt]]
      exact (ih.cons y).trans (List.Perm.swap x y ys)

/-- The insertion-sort fold permutes the accumulator and the input. -/
theorem sortDesc_perm_aux (l acc : List SMatch) :
    List.Perm (l.foldl (fun a x => insertDesc x a) acc) (acc ++ l) := by
  induction l generalizing acc with
  | nil => simp
  | cons x t ih =>
    rw [List.foldl_cons]
    have h1 := ih (insertDesc x acc)
    have h2 : List.Perm (insertDesc x acc ++ t) ((x :: acc) ++ t) :=
      (insertDesc_perm x acc).append_right t
    have h3 : List.Perm ((x :: acc) ++ t) (acc ++ x :: t) :=
      List.perm_middle.symm
    exact (h1.trans h2).trans h3

/-- The sorted match list is a permutation of the match list. -/
theorem sortDesc_perm (l : List SMatch) : List.Perm (sortDesc l) l := by
  have := sortDesc_perm_aux l []
  simpa using this

/-- `insertDesc` into a sorted list appends the new match at the end of its
score class (stability step). -/
theorem insertDesc_filter (x : SMatch) (l : List SMatch) (k : Nat)
    (h : List.Sorted (fun a b : SMatch => b.score ≤ a.score) l) :
    (insertDesc x l).filter (fun m => m.score == k)
      = l.filter (fun m => m.score == k)
          ++ (if x.score = k then [x] else []) := by
  induction l with
  | nil =>
    by_cases hx : x.score = k
    · simp [insertDesc, hx]
    · simp [insertDesc, hx]
  | cons y ys ih =>
    rw [List.sorted_cons] at h
    by_cases hlt : y.score < x.score
    · rw [show insertDesc x (y :: ys) = x :: y :: ys by simp [insertDesc, hlt]]
      by_cases hx : x.score = k
      · have hnil : (y :: ys).filter (fun m => m.score == k) = [] := by
          rw [List.filter_eq_nil_iff]
          intro b hb
          rcases List.mem_cons.mp hb with rfl | hb2
          · simp
            omega
          · have := h.1 b hb2
            simp
            omega
        rw [List.filter_cons_of_pos (by simp [hx]), hnil]
        simp [hx]
      · rw [List.filter_cons_of_neg (by simp [hx])]
        simp [hx]
    · rw [show insertDesc x (y :: ys) = y :: insertDesc x ys by
        simp [insertDesc, hlt]]
      by_cases hy : y.score = k
      · rw [List.filter_cons_of_pos (by simp [hy]),
          List.filter_cons_of_pos (by simp [hy]), ih h.2]
        simp
      · rw [List.filter_cons_of_neg (by simp [hy]),
          List.filter_cons_of_neg (by simp [hy]), ih h.2]

/-- The insertion-sort fold preserves each score class in order
(stability). -/
theorem sortDesc_filter_aux (l acc : List SMatch) (k : Nat)
    (h : List.Sorted (fun a b : SMatch => b.score ≤ a.score) acc) :
    (l.foldl (fun a x => insertDesc x a) acc).filter (fun m => m.score == k)
      = acc.filter (fun m => m.score == k)
          ++ l.filter (fun m => m.score == k) := by
  induction l generalizing acc with
  | nil => simp
  | cons x t ih =>
    rw [List.foldl_cons, ih _ (insertDesc_sorted x acc h),
      insertDesc_filter x acc k h]
    by_cases hx : x.score = k
    · rw [List.filter_cons_of_pos (by simp [hx])]
      simp [hx]
    · rw [List.filter_cons_of_neg (by simp [hx])]
      simp [hx]

/-- Sorting preserves each score class in source order: the sort is stable. -/
theorem sortDesc_filter (l : List SMatch) (k : Nat) :
    (sortDesc l).filter (fun m => m.score == k)
      = l.filter (fun m => m.score == k) := by
  have := sortDesc_filter_aux l [] k (by simp)
  simpa using this

/-- Every recorded match carries the score of its element and comes from the
document. -/
theorem mem_searchMatches_spec (pat : List Char) (doc : List Element)
    (m : SMatch) (hm : m ∈ searchMatches pat doc) :
    m.score = relevanceScore pat m.element ∧ m.element ∈ doc := by
  obtain ⟨el, hel, hf⟩ := List.mem_filterMap.mp hm
  by_cases h1 : lowerChars el.tagName.data = "script".data ∨
      lowerChars el.tagName.data = "style".data
  · rw [if_pos h1] at hf
    cases hf
  · rw [if_neg h1] at hf
    by_cases h2 : elementMatches pat el = true
    · rw [if_pos h2] at hf
      have := Option.some.inj hf
      subst this
      exact ⟨rfl, hel⟩
    · rw [if_neg h2] at hf
      cases hf

/-- An exact direct-text match scores at least 100. -/
theorem relevanceScore_ge_of_exact (pat : List Char) (el : Element)
    (h : lowerChars el.directText.data = pat) :
    100 ≤ relevanceScore pat el := by
  unfold relevanceScore
  rw [if_pos h]
  omega

/-- A non-exact match scores at most 50 + 5 + 10 = 65. -/
theorem relevanceScore_le_of_ne (pat : List Char) (el : Element)
    (h : lowerChars el.directText.data ≠ pat) :
    relevanceScore pat el ≤ 65 := by
  have hv : visBonus el ≤ 5 := by
    unfold visBonus
    split <;> omega
  have ht : tagBonus el ≤ 10 := by
    unfold tagBonus
    split <;> omega
  unfold relevanceScore
  rw [if_neg h]
  split_ifs <;> omega

/-- C5: in the scored search path, the match list is sorted by weakly
descending relevance score; the sort is a stable permutation of the matches
collected in source DOM order (each score class keeps its original order);
the `offset`/`limit` slice is applied only after sorting; `hasMore` holds
exactly when `offset + limit < totalCount`; and every element whose
lower-cased direct text equals the search text is ranked strictly before
every element whose direct text is not an exact match (in particular before
one that merely contains it), regardless of DOM order. -/
theorem c5_ranking_order (doc : List Element) (searchText : String)
    (offset limit : Nat) :
    List.Sorted (fun a b : SMatch => b.score ≤ a.score)
        (sortDesc (searchMatches (lowerChars searchText.data) doc)) ∧
    List.Perm (sortDesc (searchMatches (lowerChars searchText.data) doc))
        (searchMatches (lowerChars searchText.data) doc) ∧
    (∀ k : Nat,
        (sortDesc (searchMatches (lowerChars searchText.data) doc)).filter
            (fun m => m.score == k)
          = (searchMatches (lowerChars searchText.data) doc).filter
              (fun m => m.score == k)) ∧
    (searchQuery doc searchText offset limit).elements
        = ((sortDesc (searchMatches (lowerChars searchText.data) doc)).drop
            offset).take limit ∧
    ((searchQuery doc searchText offset limit).hasMore = true ↔
        offset + limit < (searchQuery doc searchText offset limit).totalCount) ∧
    (∀ i j : Fin (sortDesc (searchMatches (lowerChars searchText.data)
        doc)).length,
      lowerChars (((sortDesc (searchMatches (lowerChars searchText.data)
          doc)).get i).element.directText.data) = lowerChars searchText.data →
      lowerChars (((sortDesc (searchMatches (lowerChars searchText.data)
          doc)).get j).element.directText.data) ≠ lowerChars searchText.data →
      (i : Nat) < (j : Nat)) := by
  refine ⟨sortDesc_sorted _, sortDesc_perm _, fun k => sortDesc_filter _ k,
    rfl, decide_eq_true_iff, ?_⟩
  intro i j hi hj
  have hmi : (sortDesc (searchMatches (lowerChars searchText.data) doc)).get i
      ∈ searchMatches (lowerChars searchText.data) doc :=
    (sortDesc_perm _).subset (List.get_mem _ i.1 i.2)
  have hmj : (sortDesc (searchMatches (lowerChars searchText.data) doc)).get j
      ∈ searchMatches (lowerChars searchText.data) doc :=
    (sortDesc_perm _).subset (List.get_mem _ j.1 j.2)
  have hsi := (mem_searchMatches_spec _ _ _ hmi).1
  have hsj := (mem_searchMatches_spec _ _ _ hmj).1
  have h100 : 100 ≤ ((sortDesc (searchMatches (lowerChars searchText.data)
      doc)).get i).score := by
    rw [hsi]
    exact relevanceScore_ge_of_exact _ _ hi
  have h65 : ((sortDesc (searchMatches (lowerChars searchText.data)
      doc)).get j).score ≤ 65 := by
    rw [hsj]
    exact relevanceScore_le_of_ne _ _ hj
  by_contra hno
  push_neg at hno
  rcases Nat.lt_or_ge (j : Nat) (i : Nat) with hlt | hge
  · have hji : j < i := hlt
    have := (sortDesc_sorted (searchMatches (lowerChars searchText.data)
        doc)).rel_get_of_lt hji
    omega
  · have hij : (i : Nat) = (j : Nat) := by omega
    have : i = j := Fin.ext hij
    subst this
    exact hj hi

/-- The document of the spec's ranking scenario, in adversarial DOM order:
the word-boundary match precedes the exact match. -/
def c5Doc : List Element :=
  [⟨"div", "Please submit the form", [], 1, 1⟩,
    ⟨"div", "Submit", [], 1, 1⟩]

/-- C5 witness: searching `"submit"` in `c5Doc` ranks the exact match first
regardless of DOM order, and the `hasMore` equation holds at a concrete
call. -/
theorem c5_ranking_order_witness :
    (sortDesc (searchMatches (lowerChars "submit".data) c5Doc)).map
        (fun m => m.text) = ["Submit", "Please submit the form"] ∧
    ((searchQuery c5Doc "submit" 0 20).hasMore = true ↔
        0 + 20 < (searchQuery c5Doc "submit" 0 20).totalCount) ∧
    (0 : Nat) < 1 :=
  ⟨by decide,
    (c5_ranking_order c5Doc "submit" 0 20).2.2.2.2.1,
    (c5_ranking_order c5Doc "submit" 0 20).2.2.2.2.2 ⟨0, by decide⟩
      ⟨1, by decide⟩ (by decide) (by decide)⟩
